import Mathlib

/-!
Verification of the feedboard repository's Uniswap V3 position-analytics and
fee-attribution core (src/services/uniswapPositions.ts, src/services/uniswapFees.ts),
as a shallow embedding: BigInt arithmetic becomes exact Nat/Int arithmetic
(JS BigInt division truncates toward zero, and all shifts here act on
nonnegative values, so they are floor operations); JS Map becomes an
insertion-ordered association list; asynchronous background refresh becomes an
explicit transition system; the declared inter-call sleeps become an explicit
call trace.  IEEE-754 double-precision steps (Number conversion, toFixed,
parseFloat) are modelled only on the fragment where they are exact, and left
undefined (Option.none) elsewhere.
-/

namespace Feedboard

/-! ## Definitions: the shallow embedding of the analytics and fee core -/

/-- The Q96 fixed-point unit, `const Q96 = 2n ** 96n` in calculateTokenAmounts. -/
def Q96 : Nat := 2 ^ 96

/-- The twenty (bit-mask, multiplier) pairs of getSqrtRatioAtTick's conditional
multiplication chain, in source order (bits 1 through 19 of the absolute tick;
bit 0 selects the initial value instead). -/
def tickSteps : List (Nat × Nat) :=
  [ (0x2, 0xfff97272373d413259a46990580e213a),
    (0x4, 0xfff2e50f5f656932ef12357cf3c7fdcc),
    (0x8, 0xffe5caca7e10e4e61c3624eaa0941cd0),
    (0x10, 0xffcb9843d60f6159c9db58835c926644),
    (0x20, 0xff973b41fa98c081472e6896dfb254c0),
    (0x40, 0xff2ea16466c96a3843ec78b326b52861),
    (0x80, 0xfe5dee046a99a2a811c461f1969c3053),
    (0x100, 0xfcbe86c7900a88aedcffc83b479aa3a4),
    (0x200, 0xf987a7253ac413176f2b074cf7815e54),
    (0x400, 0xf3392b0822b70005940c7a398e4b70f3),
    (0x800, 0xe7159475a2c29b7443b29c7fa6e889d9),
    (0x1000, 0xd097f3bdfd2022b8845ad8f792aa5825),
    (0x2000, 0xa9f746462d870fdf8a65dc1f90e061e5),
    (0x4000, 0x70d869a156d2a1b890bb3df62baf32f7),
    (0x8000, 0x31be135f97d08fd981231505542fcfa6),
    (0x10000, 0x9aa508b5b7a84e1c677de54f3e99bc9),
    (0x20000, 0x5d6af8dedb81196699c329225ee604),
    (0x40000, 0x2216e584f5fa1ea926041bedfe98),
    (0x80000, 0x48a170391f7dc42444e8fa2) ]

/-- One conditional multiplication step of getSqrtRatioAtTick: if the mask bit
of the absolute tick is set, multiply the running 128.128 fixed-point value by
the constant and shift right 128 bits (BigInt `>>` on nonnegative values is
floor division by a power of two). -/
def tickStep (absTick : Nat) (r : Nat) (p : Nat × Nat) : Nat :=
  if absTick &&& p.1 ≠ 0 then r * p.2 / 2 ^ 128 else r

/-- The 128.128 fixed-point running product of getSqrtRatioAtTick before the
positive-tick inversion and the final 32-bit downshift.  The initial value is
the odd-bit constant when bit 0 of the absolute tick is set, else 2^128. -/
def ratioOfAbsTick (absTick : Nat) : Nat :=
  tickSteps.foldl (tickStep absTick)
    (if absTick &&& 0x1 ≠ 0 then 0xfffcb933bd6fad37aa2d162d1a594001
     else 0x100000000000000000000000000000000)

/-- getSqrtRatioAtTick (uniswapPositions.ts lines 175-207): absolute tick
selects the multiplier chain; a strictly positive tick inverts the 128.128
value as `(1n << 256n) / ratio`; the result is shifted right 32 bits to a
Q96 sqrt price. -/
def getSqrtRatioAtTick (tick : Int) : Nat :=
  let absTick := tick.natAbs
  let r := ratioOfAbsTick absTick
  let r := if tick > 0 then 2 ^ 256 / r else r
  r / 2 ^ 32

/-- The exact BigInt stage of calculateTokenAmounts (lines 140-160): sqrt
prices for the bounds and the current tick, then the three-way branch.  JS
BigInt division truncates toward zero, hence Int.tdiv.  The caller reaches
this code only when liquidity is nonzero (the zero short-circuit is in
calculateTokenAmounts below). -/
def calculateTokenAmountsRaw (liquidity : Nat) (tickLower tickUpper currentTick : Int) :
    Int × Int :=
  let sqrtPriceLower : Int := getSqrtRatioAtTick tickLower
  let sqrtPriceUpper : Int := getSqrtRatioAtTick tickUpper
  let sqrtPriceCurrent : Int := getSqrtRatioAtTick currentTick
  if currentTick < tickLower then
    (((liquidity : Int) * (Q96 : Int) * (sqrtPriceUpper - sqrtPriceLower)).tdiv
       (sqrtPriceUpper * sqrtPriceLower), 0)
  else if currentTick ≥ tickUpper then
    (0, ((liquidity : Int) * (sqrtPriceUpper - sqrtPriceLower)).tdiv (Q96 : Int))
  else
    (((liquidity : Int) * (Q96 : Int) * (sqrtPriceUpper - sqrtPriceCurrent)).tdiv
       (sqrtPriceUpper * sqrtPriceCurrent),
     ((liquidity : Int) * (sqrtPriceCurrent - sqrtPriceLower)).tdiv (Q96 : Int))

/-- Fuel-driven binary length: natBitsAux fuel n is the bit length of n
whenever fuel is at least that length.  (Stated with explicit fuel so that
it reduces inside the kernel, unlike Nat.log2.) -/
def natBitsAux : Nat → Nat → Nat
  | 0, _ => 0
  | fuel + 1, n => if n = 0 then 0 else natBitsAux fuel (n / 2) + 1

/-- The binary length of a natural number (0 for 0). -/
def natBits (n : Nat) : Nat := natBitsAux n n

/-- Round a natural number to the nearest IEEE-754 binary64 value
(round-to-nearest, ties-to-even), returned as the exact integer the double
denotes.  This is the mathematical content of the JS conversion `Number(x)`
for a nonnegative BigInt x below the double overflow threshold: values below
2^53 are exact; above, the significand is cut to 53 bits with
round-half-to-even on the dropped tail. -/
def roundToDouble53 (n : Nat) : Nat :=
  if n < 2 ^ 53 then n
  else
    let k := natBits n - 53
    let q := n / 2 ^ k
    let rem := n % 2 ^ k
    let half := 2 ^ (k - 1)
    let q' := if half < rem then q + 1
              else if rem < half then q
              else if q % 2 = 0 then q else q + 1
    q' * 2 ^ k

/-- Human-readable rendering of one raw token amount, modelling
`(Number(amount) / Math.pow(10, decimals)).toFixed(6)` (calculateTokenAmounts
lines 163-164) on the fragment where IEEE-754 double arithmetic is exact:
a zero amount renders as "0.000000" (conversion, division and formatting are
all exact at zero), and with decimals = 0 a nonnegative amount renders the
integral double `Number(amount)` in fixed notation (division by 10^0 = 1 is
exact, and toFixed(6) of an integral double below 10^21 appends six zero
fraction digits).  Renderings that pass through inexact double arithmetic
(nonzero amount with nonzero decimals, or magnitudes at or above 10^21) are
outside this embedding and yield none. -/
def renderAmount (amount : Int) (decimals : Nat) : Option String :=
  if amount = 0 then some "0.000000"
  else if 0 < amount ∧ decimals = 0 ∧ roundToDouble53 amount.toNat < 10 ^ 21 then
    some (toString (roundToDouble53 amount.toNat) ++ ".000000")
  else none

/-- calculateTokenAmounts (uniswapPositions.ts lines 128-170): zero liquidity
short-circuits to the literal strings ("0", "0") before any sqrt-price work;
otherwise the exact BigInt amounts are computed and passed through the
double-precision human-readable conversion (renderAmount; none where that
conversion is not exactly modelled). -/
def calculateTokenAmounts (liquidity : Nat) (tickLower tickUpper currentTick : Int)
    (decimals0 decimals1 : Nat) : Option (String × String) :=
  if liquidity = 0 then some ("0", "0")
  else
    let amounts := calculateTokenAmountsRaw liquidity tickLower tickUpper currentTick
    match renderAmount amounts.1 decimals0, renderAmount amounts.2 decimals1 with
    | some s0, some s1 => some (s0, s1)
    | _, _ => none

/-- The exact fixed-six-fractional-digit decimal string of a raw integer
amount at token decimals 0, i.e. the string the spec's exact-arithmetic
reading requires the calculator to produce for that input. -/
def exactFixed6 (amount : Nat) : String := toString amount ++ ".000000"

/-- The always-applied multiplier chain from the odd-bit start constant: a
concrete number, the least value the running product can reach (only twenty
multipliers exist, so even an absolute tick with every bit set stays at or
above it). -/
def minChainValue : Nat :=
  tickSteps.foldl (fun a p => a * p.2 / 2 ^ 128) 0xfffcb933bd6fad37aa2d162d1a594001

/-- One entry of fetchPositions' first-pass positionData array (lines
336-348), the fields read back from the position manager for one NFT. -/
structure PositionData where
  tokenId : Nat
  nonce : Nat
  operator : String
  token0 : String
  token1 : String
  fee : Nat
  tickLower : Int
  tickUpper : Int
  liquidity : Nat
  tokensOwed0 : Nat
  tokensOwed1 : Nat
deriving DecidableEq, Repr

/-- The pool key string of fetchPositions (line 420). -/
def poolKey (pos : PositionData) : String :=
  pos.token0 ++ "-" ++ pos.token1 ++ "-" ++ toString pos.fee

/-- The insertion-ordered keys of fetchPositions' uniquePools map (lines
417-425): only positions with liquidity > 0 contribute their pool key, each
key once.  getCurrentTick (the factory getPool and pool slot0 reads) is then
issued exactly once per key in this list (lines 430-434). -/
def uniquePoolKeys (positionData : List PositionData) : List String :=
  positionData.foldl
    (fun acc pos =>
      if 0 < pos.liquidity then
        if acc.contains (poolKey pos) then acc else acc ++ [poolKey pos]
      else acc) []

/-- The symbol / decimals / name record getTokenInfo returns and caches. -/
structure TokenMetadata where
  symbol : String
  decimals : Nat
  name : String
deriving DecidableEq, Repr

/-- The catch-branch fallback of getTokenInfo (line 234). -/
def fallbackTokenMetadata : TokenMetadata := ⟨"UNKNOWN", 18, "Unknown Token"⟩

/-- getTokenInfo (uniswapPositions.ts lines 212-236).  The in-memory
tokenInfoCache map is an insertion-ordered association list; `fetched` is the
outcome of the RPC symbol/decimals/name lookup for this call (none when the
combined Promise rejects).  A cache hit returns the memoized record without
consulting the RPC; on a miss a successful fetch is returned and memoized,
while a failed fetch returns the fallback without touching the cache. -/
def getTokenInfo (tokenInfoCache : List (String × TokenMetadata)) (tokenAddress : String)
    (fetched : Option TokenMetadata) : TokenMetadata × List (String × TokenMetadata) :=
  match (tokenInfoCache.find? (fun e => e.1 == tokenAddress)).map (fun e => e.2) with
  | some cached => (cached, tokenInfoCache)
  | none =>
    match fetched with
    | some tokenInfo => (tokenInfo, tokenInfoCache ++ [(tokenAddress, tokenInfo)])
    | none => (fallbackTokenMetadata, tokenInfoCache)

/-- Per-key state of the background-refresh machinery: marker is the key's
isFetchingInBackground entry (false when absent), inflight counts the fetch
tasks currently running for the key. -/
structure BackgroundFetchState where
  marker : Bool
  inflight : Nat
deriving DecidableEq, Repr

/-- Events of fetchAndCachePositionsInBackground (uniswapPositions.ts lines
513-531) and fetchAndCacheFeesInBackground (uniswapFees.ts lines 425-443);
the two functions have the identical guard/cleanup structure, so one step
relation models both.  triggerSkip / triggerStart: the function is invoked —
with the marker set it returns without starting anything, otherwise it sets
the marker and starts one fetch (the check and the set are one synchronous
step on the JS event loop, with no await between them).  settleSuccess /
settleFailure: a running fetch resolves or rejects — the .finally handler
runs on both outcomes and clears the marker. -/
inductive BackgroundStep : BackgroundFetchState → BackgroundFetchState → Prop
  | triggerSkip (s : BackgroundFetchState) : s.marker = true → BackgroundStep s s
  | triggerStart (s : BackgroundFetchState) : s.marker = false →
      BackgroundStep s ⟨true, s.inflight + 1⟩
  | settleSuccess (s : BackgroundFetchState) : 0 < s.inflight →
      BackgroundStep s ⟨false, s.inflight - 1⟩
  | settleFailure (s : BackgroundFetchState) : 0 < s.inflight →
      BackgroundStep s ⟨false, s.inflight - 1⟩

/-- States reachable from the initial state (no marker, no running fetch). -/
inductive BackgroundReachable : BackgroundFetchState → Prop
  | init : BackgroundReachable ⟨false, 0⟩
  | step {s t : BackgroundFetchState} : BackgroundReachable s → BackgroundStep s t →
      BackgroundReachable t

/-- One transaction returned by getPositionManagerTransactions (hash,
timestamp, block_number fields of the indexer's transaction entries,
lines 167-173). -/
structure TxRef where
  hash : String
  timestamp : String
  blockNumber : Nat
deriving DecidableEq, Repr

/-- One indexer log entry as consumed by getFeeAmountsFromTransactions:
transaction hash, decoded event name, emitting contract address, and the
decoded args the classifier reads (from/to/value of an ERC-20 Transfer, wad
of a WTAO Withdrawal); args irrelevant to a given event are ignored by the
code. -/
structure EvmLog where
  transaction_hash : String
  event_name : String
  address : String
  argFrom : String
  argTo : String
  argValue : Nat
  argWad : Nat
deriving DecidableEq, Repr

/-- uniswapFees.ts line 45. -/
def WTAO_ADDRESS : String := "0x9Dc08C6e2BF0F1eeD1E00670f80Df39145529F81"

/-- uniswapFees.ts line 42. -/
def POSITION_MANAGER : String := "0x61EeA4770d7E15e7036f8632f4bcB33AF1Af1e25"

/-- config/tokens.ts, TOKENS.usdc.contractAddress. -/
def USDC_CONTRACT_ADDRESS : String := "0xB833E8137FEDf80de7E908dc6fea43a029142F20"

/-- JS String.prototype.toLowerCase on the ASCII strings used here, as a
character-list map (kernel-reducible, unlike String.map). -/
def jsToLower (s : String) : String := ⟨s.data.map Char.toLower⟩

/-- JS Map.get on an insertion-ordered association list. -/
def mapGet {β : Type} (m : List (String × β)) (k : String) : Option β :=
  (m.find? (fun e => e.1 == k)).map (fun e => e.2)

/-- JS Map.set: replace the value in place when the key exists, else append
(JS Map iteration preserves insertion order). -/
def mapSet {β : Type} (m : List (String × β)) (k : String) (v : β) :
    List (String × β) :=
  if m.any (fun e => e.1 == k) then
    m.map (fun e => if e.1 == k then (k, v) else e)
  else m ++ [(k, v)]

/-- First pass over one block's logs (lines 239-250): the hashes, among this
block's candidate transactions, that emit a DecreaseLiquidity event — marked
as liquidity withdrawals, not fee collections. -/
def liquidityWithdrawals (txsInBlock : List TxRef) (logs : List EvmLog) : List String :=
  (logs.filter (fun l =>
      txsInBlock.any (fun tx => tx.hash == l.transaction_hash) &&
      l.event_name == "DecreaseLiquidity")).map (fun l => l.transaction_hash)

/-- Second-pass handling of one log (lines 253-291): skip logs of
non-candidate transactions and of marked withdrawal hashes; otherwise ensure
a (usdc, wtao) = (0, 0) entry exists for the hash, add the value of a USDC
Transfer from the position manager to the owner to the usdc leg, and add the
wad of a WTAO Withdrawal to the wtao leg.  Legs are modelled as exact sums
of the raw base-unit integers; the source accumulates human-readable decimal
strings via parseFloat double addition, which on these nonnegative addends
preserves exactly the zero-versus-positive distinction the classifier
consumes downstream. -/
def processLog (addressLc : String) (txsInBlock : List TxRef) (withdrawals : List String)
    (feeAmounts : List (String × Nat × Nat)) (l : EvmLog) : List (String × Nat × Nat) :=
  if txsInBlock.any (fun tx => tx.hash == l.transaction_hash) then
    if withdrawals.contains l.transaction_hash then feeAmounts
    else
      let fa := if (mapGet feeAmounts l.transaction_hash).isNone then
          mapSet feeAmounts l.transaction_hash (0, 0) else feeAmounts
      let fees := (mapGet fa l.transaction_hash).getD (0, 0)
      let fees := if jsToLower l.address == jsToLower USDC_CONTRACT_ADDRESS &&
          l.event_name == "Transfer" &&
          jsToLower l.argFrom == jsToLower POSITION_MANAGER &&
          jsToLower l.argTo == addressLc then
          (fees.1 + l.argValue, fees.2) else fees
      let fees := if jsToLower l.address == jsToLower WTAO_ADDRESS &&
          l.event_name == "Withdrawal" then
          (fees.1, fees.2 + l.argWad) else fees
      mapSet fa l.transaction_hash fees
  else feeAmounts

/-- Both passes over one block's logs (lines 239-291). -/
def processBlockLogs (addressLc : String) (txsInBlock : List TxRef) (logs : List EvmLog)
    (feeAmounts : List (String × Nat × Nat)) : List (String × Nat × Nat) :=
  logs.foldl (processLog addressLc txsInBlock (liquidityWithdrawals txsInBlock logs))
    feeAmounts

/-- An outbound indexer call of the fee subsystem. -/
inductive OutboundCall : Type
  | txPage (page : Nat)
  | blockQuery (blockNumber : Nat)
deriving DecidableEq, Repr

/-- An outbound call with the delay (in ms) the code explicitly awaits right
before issuing it.  The real-time gap to the previous call is this inserted
delay plus the previous call's network latency; only the inserted delay is a
guaranteed lower bound on inter-call spacing. -/
structure TimedCall where
  call : OutboundCall
  preDelayMs : Nat
deriving DecidableEq, Repr

/-- The insertion-ordered distinct block numbers of the candidate
transactions: the keys of the source's blockMap (lines 204-211). -/
def distinctBlockNumbers (transactions : List TxRef) : List Nat :=
  transactions.foldl
    (fun acc tx => if acc.contains tx.blockNumber then acc else acc ++ [tx.blockNumber]) []

/-- One iteration of the per-block loop: record the timed log query (with the
1500 ms sleep whenever queryCount is already positive), bump queryCount, and
— when the query succeeded — process the block's logs against the candidate
transactions of that block. -/
def accumulateStep (normalizedAddress : String) (transactions : List TxRef)
    (blockLogs : Nat → Option (List EvmLog))
    (st : List (String × Nat × Nat) × List TimedCall × Nat) (b : Nat) :
    List (String × Nat × Nat) × List TimedCall × Nat :=
  let d := if 0 < st.2.2 then 1500 else 0
  let trace := st.2.1 ++ [⟨OutboundCall.blockQuery b, d⟩]
  let qc := st.2.2 + 1
  match blockLogs b with
  | none => (st.1, trace, qc)
  | some logs =>
    (processBlockLogs normalizedAddress
       (transactions.filter (fun tx => tx.blockNumber == b)) logs st.1,
     trace, qc)

/-- The per-block accumulation loop of getFeeAmountsFromTransactions (lines
199-300), before the final positivity filter.  blockLogs models the indexer
log query for one block (none = a non-success response or a thrown error,
which the source logs and skips, leaving that block's candidates absent).
Also returns the timed trace of the per-block log queries: queryCount starts
at zero and every query after the first is preceded by an awaited 1500 ms
sleep (lines 219-223). -/
def accumulateFeeAmountsT (address : String) (transactions : List TxRef)
    (blockLogs : Nat → Option (List EvmLog)) :
    List (String × Nat × Nat) × List TimedCall :=
  let st := (distinctBlockNumbers transactions).foldl
    (accumulateStep (jsToLower address) transactions blockLogs) ([], [], 0)
  (st.1, st.2.1)

/-- The accumulated feeAmounts map of getFeeAmountsFromTransactions, keyed by
transaction hash with the (usdc, wtao) leg sums. -/
def accumulateFeeAmounts (address : String) (transactions : List TxRef)
    (blockLogs : Nat → Option (List EvmLog)) : List (String × Nat × Nat) :=
  (accumulateFeeAmountsT address transactions blockLogs).1

/-- getFeeAmountsFromTransactions (lines 192-314): accumulate per block, then
keep only the transactions whose accumulated USDC leg is strictly positive
(lines 302-308; the source tests parseFloat on the decimal string, which on
these nonnegative sums is positive exactly when the raw sum is). -/
def getFeeAmountsFromTransactions (address : String) (transactions : List TxRef)
    (blockLogs : Nat → Option (List EvmLog)) : List (String × Nat × Nat) :=
  (accumulateFeeAmounts address transactions blockLogs).filter
    (fun e => decide (0 < e.2.1))

/-- A per-token fee record (uniswapFees.ts FeeCollectionRecord, lines 8-14);
the amount is kept as the raw base-unit integer its decimal string denotes. -/
structure FeeCollectionRecord where
  timestamp : String
  token : String
  amount : Nat
  transactionHash : String
  blockNumber : Nat
deriving DecidableEq, Repr

/-- One step of fetchAndCacheFees step 3 (lines 380-406): find the hash's
transaction (skip the hash when absent) and append a USDC record and a WTAO
record for each nonzero leg. -/
def buildFeeRecordsStep (transactions : List TxRef)
    (allFees : List FeeCollectionRecord) (e : String × Nat × Nat) :
    List FeeCollectionRecord :=
  match transactions.find? (fun t => t.hash == e.1) with
  | none => allFees
  | some tx =>
    let allFees := if e.2.1 ≠ 0 then
        allFees ++ [⟨tx.timestamp, "USDC", e.2.1, e.1, tx.blockNumber⟩] else allFees
    if e.2.2 ≠ 0 then
        allFees ++ [⟨tx.timestamp, "WTAO", e.2.2, e.1, tx.blockNumber⟩] else allFees

/-- Step 3 of fetchAndCacheFees (lines 377-406): per surviving hash, in map
order, the per-token records of its nonzero legs. -/
def buildFeeRecords (transactions : List TxRef)
    (feeAmounts : List (String × Nat × Nat)) : List FeeCollectionRecord :=
  feeAmounts.foldl (buildFeeRecordsStep transactions) []

/-- A combined per-transaction record (uniswapFees.ts CombinedFeeCollection,
lines 16-22); a zero amount models the source's "0" string default. -/
structure CombinedFeeCollection where
  timestamp : String
  wtaoAmount : Nat
  usdcAmount : Nat
  transactionHash : String
  blockNumber : Nat
deriving DecidableEq, Repr

/-- One entry of combineByTransaction's byTransaction map (lines 450-465):
the optional legs plus the timestamp and block number taken from the first
record seen for the hash. -/
structure GroupEntry where
  wtao : Option Nat
  usdc : Option Nat
  timestamp : String
  blockNumber : Nat
deriving DecidableEq, Repr

/-- The updated map entry of one grouping step (lines 453-462): the hash's
entry — or a fresh one carrying this record's timestamp and block number —
with the record's amount stored into the leg matching its token. -/
def groupEntryOf (m : List (String × GroupEntry)) (fee : FeeCollectionRecord) :
    GroupEntry :=
  let existing := (mapGet m fee.transactionHash).getD
    ⟨none, none, fee.timestamp, fee.blockNumber⟩
  if fee.token == "WTAO" then { existing with wtao := some fee.amount }
  else if fee.token == "USDC" then { existing with usdc := some fee.amount }
  else existing

/-- One step of combineByTransaction's grouping fold (lines 452-465): write
the updated entry back under the record's hash. -/
def groupStep (m : List (String × GroupEntry)) (fee : FeeCollectionRecord) :
    List (String × GroupEntry) :=
  mapSet m fee.transactionHash (groupEntryOf m fee)

/-- The grouping fold of combineByTransaction (lines 450-465). -/
def groupByTransaction (allFees : List FeeCollectionRecord) : List (String × GroupEntry) :=
  allFees.foldl groupStep []

/-- The descending-timestamp order of combineByTransaction's final sort
(line 477), parametrised by the JS Date-parse function dateGetTime. -/
def newestFirst (dateGetTime : String → Int) (a b : CombinedFeeCollection) : Prop :=
  dateGetTime b.timestamp ≤ dateGetTime a.timestamp

instance (dateGetTime : String → Int) : DecidableRel (newestFirst dateGetTime) :=
  fun a b => inferInstanceAs (Decidable (dateGetTime b.timestamp ≤ dateGetTime a.timestamp))

instance (dateGetTime : String → Int) :
    IsTotal CombinedFeeCollection (newestFirst dateGetTime) :=
  ⟨fun a b => le_total (dateGetTime b.timestamp) (dateGetTime a.timestamp)⟩

instance (dateGetTime : String → Int) :
    IsTrans CombinedFeeCollection (newestFirst dateGetTime) :=
  ⟨fun _ _ _ hab hbc => le_trans hbc hab⟩

/-- combineByTransaction (lines 448-482): group the per-token legs by hash,
default each unobserved leg to zero, and sort newest-first.  The JS
Array.prototype.sort with this consistent comparator is modelled by insertion
sort, which produces the same sortedness and multiset. -/
def combineByTransaction (dateGetTime : String → Int)
    (allFees : List FeeCollectionRecord) : List CombinedFeeCollection :=
  let combined := (groupByTransaction allFees).map
    (fun e => (⟨e.2.timestamp, (e.2.wtao).getD 0, (e.2.usdc).getD 0, e.1,
               e.2.blockNumber⟩ : CombinedFeeCollection))
  combined.insertionSort (newestFirst dateGetTime)

/-- Steps 2-4 of fetchAndCacheFees as one pure pipeline: classify the fee
amounts from the block logs, build the per-token records, and combine them
per transaction.  getCombinedFeeCollections serves exactly this list, read
back through the persistent cache. -/
def combinedFeeCollections (dateGetTime : String → Int) (address : String)
    (transactions : List TxRef) (blockLogs : Nat → Option (List EvmLog)) :
    List CombinedFeeCollection :=
  combineByTransaction dateGetTime
    (buildFeeRecords transactions
      (getFeeAmountsFromTransactions address transactions blockLogs))

/-- The pagination loop of getPositionManagerTransactions (lines 148-178),
with the remaining page budget as explicit fuel (the source bounds the loop
by maxPages).  fetchPage models one GET of the paginated transaction query
(none = a non-success response, which the source turns into a thrown error).
Consecutive page queries are issued with no inserted delay.  Returns the
collected transactions plus the timed call trace. -/
def pmTxLoop (fetchPage : Nat → Option (List TxRef)) (limit : Nat) :
    Nat → Nat → List TxRef → List TimedCall → Option (List TxRef × List TimedCall)
  | 0, _, acc, trace => some (acc, trace)
  | fuel + 1, page, acc, trace =>
    if acc.length < limit then
      match fetchPage page with
      | none => none
      | some txs =>
        let trace' := trace ++ [⟨OutboundCall.txPage page, 0⟩]
        let acc' := acc ++ txs
        if txs.length = 200 then pmTxLoop fetchPage limit fuel (page + 1) acc' trace'
        else some (acc', trace')
    else some (acc, trace)

/-- getPositionManagerTransactions (lines 139-186): paginate from page 1 with
page budget ceil(limit / 200), then truncate to limit. -/
def getPositionManagerTransactions (fetchPage : Nat → Option (List TxRef))
    (limit : Nat) : Option (List TxRef × List TimedCall) :=
  match pmTxLoop fetchPage limit ((limit + 199) / 200) 1 [] [] with
  | none => none
  | some (txs, trace) => some (txs.take limit, trace)

/-- The outbound-call trace of one fetchAndCacheFees run (lines 355-420): the
paginated transaction queries, then — unless the pagination failed or found
no transactions — the per-block log queries.  none models the thrown and
caught pagination failure. -/
def fetchAndCacheFeesTrace (fetchPage : Nat → Option (List TxRef))
    (blockLogs : Nat → Option (List EvmLog)) (address : String) (limit : Nat) :
    Option (List TimedCall) :=
  match getPositionManagerTransactions fetchPage limit with
  | none => none
  | some (transactions, trace) =>
    if transactions.length = 0 then some trace
    else some (trace ++ (accumulateFeeAmountsT address transactions blockLogs).2)

/-- The claim's rate-limit guarantee over a call trace: every call after the
first is preceded by an inserted delay of at least minInterval milliseconds.
(The inserted delay is the only guaranteed lower bound on the real-time gap
between consecutive calls, since upstream latency has no lower bound.) -/
def rateLimited (minInterval : Nat) (trace : List TimedCall) : Prop :=
  ∀ i : Nat, 0 < i → ∀ hi : i < trace.length,
    minInterval ≤ (trace.get ⟨i, hi⟩).preDelayMs

/-- The invariant the grouping fold maintains relative to the full record
list F: each entry's observed legs and its timestamp/block stem from records
of F with the entry's hash. -/
def GroupInv (F : List FeeCollectionRecord) (m : List (String × GroupEntry)) : Prop :=
  ∀ kg ∈ m,
    (∀ a, kg.2.wtao = some a →
      ∃ f ∈ F, f.transactionHash = kg.1 ∧ f.token = "WTAO" ∧ f.amount = a) ∧
    (∀ a, kg.2.usdc = some a →
      ∃ f ∈ F, f.transactionHash = kg.1 ∧ f.token = "USDC" ∧ f.amount = a) ∧
    ∃ f ∈ F, f.transactionHash = kg.1 ∧ f.timestamp = kg.2.timestamp ∧
      f.blockNumber = kg.2.blockNumber

/-! ## Theorems -/

/-- Every multiplier constant of the conditional chain fits in 128 bits. -/
theorem tickSteps_le : ∀ p ∈ tickSteps, p.2 ≤ 2 ^ 128 := by decide

theorem minChainValue_ge : 2 ^ 52 ≤ minChainValue := by decide

/-- The running product never exceeds 2^128: the start values do not and each
step multiplies by a constant at most 2^128, then divides by 2^128. -/
theorem foldl_tickStep_le (absTick : Nat) :
    ∀ (l : List (Nat × Nat)), (∀ p ∈ l, p.2 ≤ 2 ^ 128) → ∀ r : Nat, r ≤ 2 ^ 128 →
      l.foldl (tickStep absTick) r ≤ 2 ^ 128 := by
  intro l
  induction l with
  | nil => intro _ r hr; simpa using hr
  | cons p l ih =>
    intro hc r hr
    have hp : p.2 ≤ 2 ^ 128 := hc p (List.mem_cons_self p l)
    have hstep : tickStep absTick r p ≤ 2 ^ 128 := by
      unfold tickStep
      split
      · calc r * p.2 / 2 ^ 128 ≤ 2 ^ 128 * 2 ^ 128 / 2 ^ 128 :=
              Nat.div_le_div_right (Nat.mul_le_mul hr hp)
          _ = 2 ^ 128 := by norm_num
      · exact hr
    exact ih (fun q hq => hc q (List.mem_cons_of_mem p hq)) _ hstep

/-- Skipping steps (or starting higher) only increases the running product:
the conditional fold from a larger start dominates the always-applied fold
from a smaller start. -/
theorem foldl_tickStep_ge (absTick : Nat) :
    ∀ (l : List (Nat × Nat)), (∀ p ∈ l, p.2 ≤ 2 ^ 128) → ∀ r s : Nat, s ≤ r →
      l.foldl (fun a p => a * p.2 / 2 ^ 128) s ≤ l.foldl (tickStep absTick) r := by
  intro l
  induction l with
  | nil => intro _ r s h; simpa using h
  | cons p l ih =>
    intro hc r s h
    have hp : p.2 ≤ 2 ^ 128 := hc p (List.mem_cons_self p l)
    have hc' : ∀ q ∈ l, q.2 ≤ 2 ^ 128 := fun q hq => hc q (List.mem_cons_of_mem p hq)
    simp only [List.foldl_cons]
    unfold tickStep
    split
    · exact ih hc' _ _ (Nat.div_le_div_right (Nat.mul_le_mul_right _ h))
    · refine ih hc' _ _ ?_
      calc s * p.2 / 2 ^ 128 ≤ s * 2 ^ 128 / 2 ^ 128 :=
            Nat.div_le_div_right (Nat.mul_le_mul_left _ hp)
        _ = s := Nat.mul_div_cancel s (by norm_num)
        _ ≤ r := h

theorem ratioOfAbsTick_le (absTick : Nat) : ratioOfAbsTick absTick ≤ 2 ^ 128 := by
  unfold ratioOfAbsTick
  refine foldl_tickStep_le absTick tickSteps tickSteps_le _ ?_
  split <;> norm_num

theorem ratioOfAbsTick_ge (absTick : Nat) : 2 ^ 52 ≤ ratioOfAbsTick absTick := by
  refine le_trans minChainValue_ge ?_
  unfold ratioOfAbsTick minChainValue
  refine foldl_tickStep_ge absTick tickSteps tickSteps_le _ _ ?_
  split <;> norm_num

/-- Core rounding-error bound: dividing 2^256 by a 52-to-128-bit value and
truncating both factors to Q96 (the final 32-bit downshift) loses at most
2^173 of the exact 2^192 product. -/
theorem div_shift_product_bound (r : Nat) (hlo : 2 ^ 52 ≤ r) (hhi : r ≤ 2 ^ 128) :
    (2 ^ 256 / r / 2 ^ 32) * (r / 2 ^ 32) ≤ 2 ^ 192 ∧
    2 ^ 192 ≤ (2 ^ 256 / r / 2 ^ 32) * (r / 2 ^ 32) + 2 ^ 173 := by
  have hr0 : 0 < r := lt_of_lt_of_le (by norm_num) hlo
  set a := 2 ^ 256 / r with ha_def
  set a1 := a / 2 ^ 32 with ha1_def
  set r1 := r / 2 ^ 32 with hr1_def
  constructor
  · -- upper bound
    have h1 : a1 * 2 ^ 32 ≤ a := Nat.div_mul_le_self a (2 ^ 32)
    have h2 : r1 * 2 ^ 32 ≤ r := Nat.div_mul_le_self r (2 ^ 32)
    have h3 : a * r ≤ 2 ^ 256 := by
      have := Nat.div_mul_le_self (2 ^ 256) r
      calc a * r = 2 ^ 256 / r * r := by rw [ha_def]
        _ ≤ 2 ^ 256 := this
    have h4 : a1 * r1 * 2 ^ 64 ≤ 2 ^ 256 := by
      calc a1 * r1 * 2 ^ 64 = (a1 * 2 ^ 32) * (r1 * 2 ^ 32) := by ring
        _ ≤ a * r := Nat.mul_le_mul h1 h2
        _ ≤ 2 ^ 256 := h3
    have h5 := (Nat.le_div_iff_mul_le (show 0 < 2 ^ 64 by norm_num)).mpr h4
    have h6 : (2 : Nat) ^ 256 / 2 ^ 64 = 2 ^ 192 := by norm_num
    rw [h6] at h5
    exact h5
  · -- lower bound
    have ha_hi : a ≤ 2 ^ 204 := by
      calc a = 2 ^ 256 / r := ha_def
        _ ≤ 2 ^ 256 / 2 ^ 52 := Nat.div_le_div_left hlo (by norm_num)
        _ = 2 ^ 204 := by norm_num
    have ha1_hi : a1 ≤ 2 ^ 172 := by
      calc a1 = a / 2 ^ 32 := ha1_def
        _ ≤ 2 ^ 204 / 2 ^ 32 := Nat.div_le_div_right ha_hi
        _ = 2 ^ 172 := by norm_num
    have hr1_hi : r1 ≤ 2 ^ 96 := by
      calc r1 = r / 2 ^ 32 := hr1_def
        _ ≤ 2 ^ 128 / 2 ^ 32 := Nat.div_le_div_right hhi
        _ = 2 ^ 96 := by norm_num
    have hu : a % 2 ^ 32 < 2 ^ 32 := Nat.mod_lt a (by norm_num)
    have hv : r % 2 ^ 32 < 2 ^ 32 := Nat.mod_lt r (by norm_num)
    have ea : a = a1 * 2 ^ 32 + a % 2 ^ 32 := by
      rw [ha1_def]; omega
    have er : r = r1 * 2 ^ 32 + r % 2 ^ 32 := by
      rw [hr1_def]; omega
    have expand : a * r = a1 * r1 * 2 ^ 64 +
        (a1 * 2 ^ 32 * (r % 2 ^ 32) + (a % 2 ^ 32) * (r1 * 2 ^ 32) +
         (a % 2 ^ 32) * (r % 2 ^ 32)) := by
      calc a * r = (a1 * 2 ^ 32 + a % 2 ^ 32) * (r1 * 2 ^ 32 + r % 2 ^ 32) := by
            rw [← ea, ← er]
        _ = a1 * r1 * 2 ^ 64 +
            (a1 * 2 ^ 32 * (r % 2 ^ 32) + (a % 2 ^ 32) * (r1 * 2 ^ 32) +
             (a % 2 ^ 32) * (r % 2 ^ 32)) := by ring
    have t1 : a1 * 2 ^ 32 * (r % 2 ^ 32) ≤ 2 ^ 236 := by
      calc a1 * 2 ^ 32 * (r % 2 ^ 32) ≤ 2 ^ 172 * 2 ^ 32 * 2 ^ 32 :=
            Nat.mul_le_mul (Nat.mul_le_mul ha1_hi le_rfl) hv.le
        _ = 2 ^ 236 := by norm_num
    have t2 : (a % 2 ^ 32) * (r1 * 2 ^ 32) ≤ 2 ^ 160 := by
      calc (a % 2 ^ 32) * (r1 * 2 ^ 32) ≤ 2 ^ 32 * (2 ^ 96 * 2 ^ 32) :=
            Nat.mul_le_mul hu.le (Nat.mul_le_mul hr1_hi le_rfl)
        _ = 2 ^ 160 := by norm_num
    have t3 : (a % 2 ^ 32) * (r % 2 ^ 32) ≤ 2 ^ 64 := by
      calc (a % 2 ^ 32) * (r % 2 ^ 32) ≤ 2 ^ 32 * 2 ^ 32 := Nat.mul_le_mul hu.le hv.le
        _ = 2 ^ 64 := by norm_num
    have h256 : 2 ^ 256 ≤ a * r + r := by
      have hdm := Nat.div_add_mod (2 ^ 256) r
      rw [← ha_def] at hdm
      have hmod : 2 ^ 256 % r < r := Nat.mod_lt _ hr0
      calc (2 : Nat) ^ 256 = r * a + 2 ^ 256 % r := hdm.symm
        _ ≤ r * a + r := Nat.add_le_add_left hmod.le _
        _ = a * r + r := by ring
    have final : 2 ^ 256 ≤ a1 * r1 * 2 ^ 64 + (2 ^ 236 + 2 ^ 160 + 2 ^ 64) + 2 ^ 128 := by
      calc (2 : Nat) ^ 256 ≤ a * r + r := h256
        _ = a1 * r1 * 2 ^ 64 +
            (a1 * 2 ^ 32 * (r % 2 ^ 32) + (a % 2 ^ 32) * (r1 * 2 ^ 32) +
             (a % 2 ^ 32) * (r % 2 ^ 32)) + r := by rw [expand]
        _ ≤ a1 * r1 * 2 ^ 64 + (2 ^ 236 + 2 ^ 160 + 2 ^ 64) + 2 ^ 128 :=
            Nat.add_le_add (Nat.add_le_add le_rfl
              (Nat.add_le_add (Nat.add_le_add t1 t2) t3)) hhi
    linarith [final]

theorem getSqrtRatioAtTick_pos_eq (t : Int) (h : 0 < t) :
    getSqrtRatioAtTick t = 2 ^ 256 / ratioOfAbsTick t.natAbs / 2 ^ 32 := by
  simp only [getSqrtRatioAtTick]
  rw [if_pos h]

theorem getSqrtRatioAtTick_nonpos_eq (t : Int) (h : ¬ 0 < t) :
    getSqrtRatioAtTick t = ratioOfAbsTick t.natAbs / 2 ^ 32 := by
  simp only [getSqrtRatioAtTick]
  rw [if_neg h]

/-- C8: for every valid tick t (absolute value at most 887272) the Q96 values
at t and at its negation multiply to 2^192 up to fixed-point rounding: the
product never exceeds 2^192 and falls short of it by less than 2^173
(a relative error below 2^-19).  The two calls share the same 128.128 running
product, which one of them inverts, so the deficit is exactly the truncation
loss of the BigInt divisions and the two 32-bit downshifts. -/
theorem sqrtRatio_inverse_product (t : Int) (ht : t.natAbs ≤ 887272) :
    getSqrtRatioAtTick t * getSqrtRatioAtTick (-t) ≤ 2 ^ 192 ∧
    2 ^ 192 ≤ getSqrtRatioAtTick t * getSqrtRatioAtTick (-t) + 2 ^ 173 := by
  rcases lt_trichotomy t 0 with hlt | heq | hgt
  · have h1 : getSqrtRatioAtTick t = ratioOfAbsTick t.natAbs / 2 ^ 32 :=
      getSqrtRatioAtTick_nonpos_eq t (by omega)
    have h2 : getSqrtRatioAtTick (-t) = 2 ^ 256 / ratioOfAbsTick t.natAbs / 2 ^ 32 := by
      rw [getSqrtRatioAtTick_pos_eq (-t) (by omega), Int.natAbs_neg]
    have hb := div_shift_product_bound (ratioOfAbsTick t.natAbs)
      (ratioOfAbsTick_ge _) (ratioOfAbsTick_le _)
    rw [h1, h2]
    exact ⟨by rw [mul_comm]; exact hb.1, by rw [mul_comm]; exact hb.2⟩
  · subst heq; decide
  · have h1 : getSqrtRatioAtTick t = 2 ^ 256 / ratioOfAbsTick t.natAbs / 2 ^ 32 :=
      getSqrtRatioAtTick_pos_eq t hgt
    have h2 : getSqrtRatioAtTick (-t) = ratioOfAbsTick t.natAbs / 2 ^ 32 := by
      rw [getSqrtRatioAtTick_nonpos_eq (-t) (by omega), Int.natAbs_neg]
    have hb := div_shift_product_bound (ratioOfAbsTick t.natAbs)
      (ratioOfAbsTick_ge _) (ratioOfAbsTick_le _)
    rw [h1, h2]
    exact hb

/-- Witness for sqrtRatio_inverse_product at the concrete valid tick 1000. -/
theorem sqrtRatio_inverse_product_witness :
    getSqrtRatioAtTick 1000 * getSqrtRatioAtTick (-1000) ≤ 2 ^ 192 ∧
    2 ^ 192 ≤ getSqrtRatioAtTick 1000 * getSqrtRatioAtTick (-1000) + 2 ^ 173 :=
  sqrtRatio_inverse_product 1000 (by decide)

theorem renderAmount_zero (d : Nat) : renderAmount 0 d = some "0.000000" := by
  simp [renderAmount]

theorem renderAmount_exact (a : Int) (h0 : 0 ≤ a) (h53 : a.toNat < 2 ^ 53) :
    renderAmount a 0 = some (exactFixed6 a.toNat) := by
  rcases eq_or_lt_of_le h0 with heq | hpos
  · rw [← heq]
    simp [renderAmount, exactFixed6]
    decide
  · have hround : roundToDouble53 a.toNat = a.toNat := by
      unfold roundToDouble53
      rw [if_pos h53]
    unfold renderAmount
    rw [if_neg (by omega), if_pos ⟨hpos, rfl, by rw [hround]; omega⟩, hround]
    rfl

/-- C1 counterexample: liquidity 1, tick range 0..1, current tick -1 (below
the lower bound), decimals 0: the calculator returns amount1 as the string
"0.000000", which is not the exact string "0" the claim requires. -/
theorem calcAmounts_zero_side_string_counterexample :
    calculateTokenAmounts 1 0 1 (-1) 0 0 = some ("0.000000", "0.000000") ∧
    ("0.000000" : String) ≠ "0" := by
  constructor
  · decide
  · decide

/-- C1 (amended): for positive liquidity, when the current tick is strictly
below the lower bound the raw BigInt amounts are exactly (the claimed token0
formula, 0), and when the current tick is at or above the upper bound they
are exactly (0, the claimed token1 formula); the zero side of any rendered
result is the string "0.000000" (the six-fractional-digit display of zero),
not the bare string "0". -/
theorem calcAmounts_out_of_range_sides (L : Nat) (tl tu ct : Int) (d0 d1 : Nat)
    (hL : 0 < L) (hrange : tl ≤ tu) :
    (ct < tl →
      calculateTokenAmountsRaw L tl tu ct =
        (((L : Int) * (Q96 : Int) *
            ((getSqrtRatioAtTick tu : Int) - (getSqrtRatioAtTick tl : Int))).tdiv
           ((getSqrtRatioAtTick tu : Int) * (getSqrtRatioAtTick tl : Int)), 0) ∧
      ∀ s0 s1, calculateTokenAmounts L tl tu ct d0 d1 = some (s0, s1) → s1 = "0.000000") ∧
    (tu ≤ ct →
      calculateTokenAmountsRaw L tl tu ct =
        (0, ((L : Int) *
              ((getSqrtRatioAtTick tu : Int) - (getSqrtRatioAtTick tl : Int))).tdiv
             (Q96 : Int)) ∧
      ∀ s0 s1, calculateTokenAmounts L tl tu ct d0 d1 = some (s0, s1) → s0 = "0.000000") := by
  have hL' : ¬ L = 0 := by omega
  constructor
  · intro hlt
    have hraw : calculateTokenAmountsRaw L tl tu ct =
        (((L : Int) * (Q96 : Int) *
            ((getSqrtRatioAtTick tu : Int) - (getSqrtRatioAtTick tl : Int))).tdiv
           ((getSqrtRatioAtTick tu : Int) * (getSqrtRatioAtTick tl : Int)), 0) := by
      simp only [calculateTokenAmountsRaw]
      rw [if_pos hlt]
    refine ⟨hraw, ?_⟩
    intro s0 s1 hres
    simp only [calculateTokenAmounts, if_neg hL', hraw, renderAmount_zero] at hres
    split at hres
    · simp_all
    · simp at hres
  · intro hge
    have hnlt : ¬ ct < tl := by omega
    have hraw : calculateTokenAmountsRaw L tl tu ct =
        (0, ((L : Int) *
              ((getSqrtRatioAtTick tu : Int) - (getSqrtRatioAtTick tl : Int))).tdiv
             (Q96 : Int)) := by
      simp only [calculateTokenAmountsRaw]
      rw [if_neg hnlt, if_pos hge]
    refine ⟨hraw, ?_⟩
    intro s0 s1 hres
    simp only [calculateTokenAmounts, if_neg hL', hraw, renderAmount_zero] at hres
    split at hres
    · simp_all
    · simp at hres

/-- Witness for calcAmounts_out_of_range_sides: liquidity 1000000, range
-100..100, current tick -200 (below range), projecting the raw-amount
equation of the below-range case. -/
theorem calcAmounts_out_of_range_sides_witness :
    calculateTokenAmountsRaw 1000000 (-100) 100 (-200) =
      (((1000000 : Int) * (Q96 : Int) *
          ((getSqrtRatioAtTick 100 : Int) - (getSqrtRatioAtTick (-100) : Int))).tdiv
         ((getSqrtRatioAtTick 100 : Int) * (getSqrtRatioAtTick (-100) : Int)), 0) :=
  ((calcAmounts_out_of_range_sides 1000000 (-100) 100 (-200) 0 0 (by decide)
      (by decide)).1 (by decide)).1

/-- C3 counterexample: at liquidity 10^21, range 0..1, current tick 1 and
token decimals 0, the exact BigInt token1 amount is 49998750062496094, but
the conversion through `Number(...)` rounds it to the nearest double
49998750062496096 (the exact value needs 56 significand bits), so the
rendered decimal string does not equal the exact fixed-point value: the
output pipeline is not free of floating-point precision loss. -/
theorem calcAmounts_float_loss_counterexample :
    calculateTokenAmountsRaw (10 ^ 21) 0 1 1 = (0, 49998750062496094) ∧
    calculateTokenAmounts (10 ^ 21) 0 1 1 0 0 =
      some ("0.000000", "49998750062496096.000000") ∧
    "49998750062496096.000000" ≠ exactFixed6 49998750062496094 := by
  refine ⟨by decide, by decide, by decide⟩

/-- C3 (amended): the sqrt-price and liquidity-to-amount computations are
exact arbitrary-precision integer arithmetic, but the final human-readable
strings pass through IEEE-754 double conversion, which is lossless exactly
when the raw amounts are double-representable: with token decimals 0 and raw
amounts below 2^53 the rendered strings equal the exact fixed-point decimal
strings. -/
theorem calcAmounts_exact_when_representable (L : Nat) (tl tu ct : Int) (a0 a1 : Int)
    (hL : 0 < L)
    (h : calculateTokenAmountsRaw L tl tu ct = (a0, a1))
    (h00 : 0 ≤ a0) (h10 : 0 ≤ a1)
    (h0 : a0.toNat < 2 ^ 53) (h1 : a1.toNat < 2 ^ 53) :
    calculateTokenAmounts L tl tu ct 0 0 =
      some (exactFixed6 a0.toNat, exactFixed6 a1.toNat) := by
  have hL' : ¬ L = 0 := by omega
  simp only [calculateTokenAmounts, if_neg hL', h,
    renderAmount_exact a0 h00 h0, renderAmount_exact a1 h10 h1]

/-- Witness for calcAmounts_exact_when_representable: liquidity 1000000,
range -100..100, current tick 0, both raw amounts are 4987 (below 2^53), and
the rendered strings are the exact "4987.000000". -/
theorem calcAmounts_exact_when_representable_witness :
    calculateTokenAmounts 1000000 (-100) 100 0 0 0 =
      some (exactFixed6 (4987 : Int).toNat, exactFixed6 (4987 : Int).toNat) :=
  calcAmounts_exact_when_representable 1000000 (-100) 100 0 4987 4987
    (by decide) (by decide) (by decide) (by decide) (by decide) (by decide)

theorem uniquePoolKeys_foldl_mem (ps : List PositionData) :
    ∀ (acc : List String), ∀ k ∈ ps.foldl
      (fun acc pos =>
        if 0 < pos.liquidity then
          if acc.contains (poolKey pos) then acc else acc ++ [poolKey pos]
        else acc) acc,
      k ∈ acc ∨ ∃ p ∈ ps, 0 < p.liquidity ∧ poolKey p = k := by
  induction ps with
  | nil => intro acc k hk; exact Or.inl hk
  | cons p ps ih =>
    intro acc k hk
    simp only [List.foldl_cons] at hk
    rcases ih _ k hk with hacc | ⟨q, hq, hql, hqk⟩
    · by_cases hl : 0 < p.liquidity
      · rw [if_pos hl] at hacc
        by_cases hc : acc.contains (poolKey p)
        · rw [if_pos hc] at hacc
          exact Or.inl hacc
        · rw [if_neg hc] at hacc
          rcases List.mem_append.mp hacc with h | h
          · exact Or.inl h
          · refine Or.inr ⟨p, List.mem_cons_self p ps, hl, ?_⟩
            have hk' : k = poolKey p := by simpa using h
            exact hk'.symm
      · rw [if_neg hl] at hacc
        exact Or.inl hacc
    · exact Or.inr ⟨q, List.mem_cons_of_mem p hq, hql, hqk⟩

/-- C9: zero liquidity short-circuits calculateTokenAmounts to the literal
pair ("0", "0") before any sqrt-price work, and every pool key fetchPositions
queries (factory getPool plus pool slot0, via getCurrentTick) comes from some
position with strictly positive liquidity — a pool key appearing only in
zero-liquidity positions is never looked up. -/
theorem zeroLiquidity_no_pool_lookup (tl tu ct : Int) (d0 d1 : Nat)
    (ps : List PositionData) :
    calculateTokenAmounts 0 tl tu ct d0 d1 = some ("0", "0") ∧
    ∀ k ∈ uniquePoolKeys ps, ∃ p ∈ ps, 0 < p.liquidity ∧ poolKey p = k := by
  constructor
  · simp [calculateTokenAmounts]
  · intro k hk
    rcases uniquePoolKeys_foldl_mem ps [] k hk with h | h
    · simp at h
    · exact h

/-- Witness for zeroLiquidity_no_pool_lookup: one positive-liquidity position
whose pool key is queried, plus the zero-liquidity short-circuit. -/
theorem zeroLiquidity_no_pool_lookup_witness :
    calculateTokenAmounts 0 0 1 0 6 6 = some ("0", "0") ∧
    ∃ p ∈ [(⟨1, 0, "0xop", "0xA", "0xB", 3000, -10, 10, 5, 0, 0⟩ : PositionData)],
      0 < p.liquidity ∧ poolKey p = "0xA-0xB-3000" :=
  ⟨(zeroLiquidity_no_pool_lookup 0 1 0 6 6 []).1,
   (zeroLiquidity_no_pool_lookup 0 1 0 6 6
      [⟨1, 0, "0xop", "0xA", "0xB", 3000, -10, 10, 5, 0, 0⟩]).2
     "0xA-0xB-3000" (by decide)⟩

/-- C10: on a cache miss, a failed RPC fetch never propagates: getTokenInfo
returns the UNKNOWN/18/Unknown-Token fallback and leaves the process-lifetime
cache untouched (so a later call retries the fetch, and a later successful
fetch is returned); every record in the post-call cache was either already
cached or is successfully fetched metadata — the fallback is never memoized. -/
theorem getTokenInfo_fallback_not_memoized (tokenInfoCache : List (String × TokenMetadata))
    (tokenAddress : String)
    (hmiss : tokenInfoCache.find? (fun e => e.1 == tokenAddress) = none) :
    (getTokenInfo tokenInfoCache tokenAddress none).1 = fallbackTokenMetadata ∧
    (getTokenInfo tokenInfoCache tokenAddress none).2 = tokenInfoCache ∧
    (∀ info, (getTokenInfo tokenInfoCache tokenAddress (some info)).1 = info) ∧
    ∀ fetched a t, (a, t) ∈ (getTokenInfo tokenInfoCache tokenAddress fetched).2 →
      (a, t) ∈ tokenInfoCache ∨ fetched = some t := by
  refine ⟨?_, ?_, ?_, ?_⟩
  · simp [getTokenInfo, hmiss]
  · simp [getTokenInfo, hmiss]
  · intro info
    simp [getTokenInfo, hmiss]
  · intro fetched a t hmem
    cases fetched with
    | none =>
      left
      simpa [getTokenInfo, hmiss] using hmem
    | some info =>
      simp only [getTokenInfo, hmiss, Option.map_none] at hmem
      rcases List.mem_append.mp hmem with h | h
      · exact Or.inl h
      · right
        have : a = tokenAddress ∧ t = info := by simpa using h
        rw [this.2]

/-- Witness for getTokenInfo_fallback_not_memoized on the empty cache. -/
theorem getTokenInfo_fallback_not_memoized_witness :
    (getTokenInfo [] "0xT" none).1 = fallbackTokenMetadata ∧
    (getTokenInfo [] "0xT" none).2 = [] :=
  ⟨(getTokenInfo_fallback_not_memoized [] "0xT" rfl).1,
   (getTokenInfo_fallback_not_memoized [] "0xT" rfl).2.1⟩

theorem background_inflight_eq (s : BackgroundFetchState) (h : BackgroundReachable s) :
    s.inflight = if s.marker then 1 else 0 := by
  induction h with
  | init => rfl
  | step hr hstep ih =>
    cases hstep with
    | triggerSkip hm => exact ih
    | triggerStart hm =>
      rw [hm] at ih
      simp at ih
      simp [ih]
    | settleSuccess hpos =>
      simp only []
      split at ih <;> simp <;> omega
    | settleFailure hpos =>
      simp only []
      split at ih <;> simp <;> omega

/-- C6: in every reachable per-key state, at most one refresh is in flight
(a trigger while the marker is set starts no second fetch), and whenever the
marker is set the pending settle event — which fires on success and on
failure alike, via the single .finally cleanup path — is enabled and clears
the marker, so no key stays marked in-flight forever. -/
theorem single_flight_per_key (s : BackgroundFetchState) (h : BackgroundReachable s) :
    s.inflight ≤ 1 ∧ (s.marker = true → BackgroundStep s ⟨false, 0⟩) := by
  have hinv := background_inflight_eq s h
  constructor
  · rcases hb : s.marker with _ | _ <;> rw [hb] at hinv <;> simp at hinv <;> omega
  · intro hm
    rw [hm] at hinv
    simp at hinv
    have hstep := BackgroundStep.settleSuccess s (by omega)
    rw [hinv] at hstep
    exact hstep

/-- Witness for single_flight_per_key at the reachable state with the marker
set and one running fetch. -/
theorem single_flight_per_key_witness :
    (⟨true, 1⟩ : BackgroundFetchState).inflight ≤ 1 ∧
    ((⟨true, 1⟩ : BackgroundFetchState).marker = true →
      BackgroundStep ⟨true, 1⟩ ⟨false, 0⟩) :=
  single_flight_per_key ⟨true, 1⟩
    (BackgroundReachable.step BackgroundReachable.init
      (BackgroundStep.triggerStart ⟨false, 0⟩ rfl))

theorem any_key_iff {β : Type} (m : List (String × β)) (k : String) :
    m.any (fun e => e.1 == k) = true ↔ k ∈ m.map Prod.fst := by
  simp only [List.any_eq_true, List.mem_map, beq_iff_eq]

theorem mem_mapSet {β : Type} (m : List (String × β)) (k : String) (v : β) :
    ∀ e ∈ mapSet m k v, e ∈ m ∨ e = (k, v) := by
  intro e he
  unfold mapSet at he
  split at he
  · rcases List.mem_map.mp he with ⟨e', he', heq⟩
    by_cases hk : (e'.1 == k) = true
    · right
      rw [← heq]
      simp [hk]
    · left
      rw [← heq]
      simpa [hk] using he'
  · rcases List.mem_append.mp he with h | h
    · exact Or.inl h
    · right
      simpa using h

theorem keys_mapSet {β : Type} (m : List (String × β)) (k : String) (v : β) :
    (mapSet m k v).map Prod.fst =
      if k ∈ m.map Prod.fst then m.map Prod.fst else m.map Prod.fst ++ [k] := by
  unfold mapSet
  by_cases h : k ∈ m.map Prod.fst
  · rw [if_pos ((any_key_iff m k).mpr h), if_pos h, List.map_map]
    refine List.map_congr_left ?_
    intro e _
    simp only [Function.comp_apply]
    by_cases hek : e.1 = k
    · simp [hek]
    · simp [hek]
  · rw [if_neg (fun hc => h ((any_key_iff m k).mp hc)), if_neg h]
    simp

theorem keysNodup_mapSet {β : Type} (m : List (String × β)) (k : String) (v : β)
    (h : (m.map Prod.fst).Nodup) : ((mapSet m k v).map Prod.fst).Nodup := by
  rw [keys_mapSet]
  split
  · exact h
  · next hk => simp [List.nodup_append, h, hk]

theorem key_mem_mapSet {β : Type} (m : List (String × β)) (k : String) (v : β) :
    k ∈ (mapSet m k v).map Prod.fst := by
  rw [keys_mapSet]
  split
  · assumption
  · simp

theorem key_mem_mapSet_of_mem {β : Type} (m : List (String × β)) (k k' : String) (v : β)
    (h : k' ∈ m.map Prod.fst) : k' ∈ (mapSet m k v).map Prod.fst := by
  rw [keys_mapSet]
  split
  · exact h
  · simp [h]

theorem entry_eq_of_keysNodup {β : Type} {m : List (String × β)}
    (h : (m.map Prod.fst).Nodup) {p q : String × β}
    (hp : p ∈ m) (hq : q ∈ m) (hk : p.1 = q.1) : p = q := by
  induction m with
  | nil => cases hp
  | cons a m ih =>
    simp only [List.map_cons, List.nodup_cons] at h
    rcases List.mem_cons.mp hp with hp1 | hp2 <;> rcases List.mem_cons.mp hq with hq1 | hq2
    · rw [hp1, hq1]
    · exfalso
      apply h.1
      rw [← hp1, hk]
      exact List.mem_map.mpr ⟨q, hq2, rfl⟩
    · exfalso
      apply h.1
      rw [← hq1, ← hk]
      exact List.mem_map.mpr ⟨p, hp2, rfl⟩
    · exact ih h.2 hp2 hq2

theorem mem_processLog (a : String) (t : List TxRef) (w : List String)
    (fa : List (String × Nat × Nat)) (l : EvmLog) :
    ∀ e ∈ processLog a t w fa l, e ∈ fa ∨ e.1 = l.transaction_hash := by
  intro e he
  simp only [processLog] at he
  split at he
  · split at he
    · exact Or.inl he
    · rcases mem_mapSet _ _ _ e he with h1 | h1
      · split at h1
        · rcases mem_mapSet _ _ _ e h1 with h2 | h2
          · exact Or.inl h2
          · right
            rw [h2]
        · exact Or.inl h1
      · right
        rw [h1]
  · exact Or.inl he

theorem processLog_no_excluded_key (a : String) (t : List TxRef) (w : List String)
    (fa : List (String × Nat × Nat)) (l : EvmLog) (h : String)
    (hfa : ∀ e ∈ fa, e.1 ≠ h)
    (hexc : w.contains h = true ∨ ∀ tx ∈ t, tx.hash ≠ h) :
    ∀ e ∈ processLog a t w fa l, e.1 ≠ h := by
  intro e he
  simp only [processLog] at he
  split at he
  · next hcand =>
    split at he
    · exact hfa e he
    · next hw =>
      have hne : l.transaction_hash ≠ h := by
        intro hth
        rcases hexc with hw' | hall
        · rw [hth] at hw
          exact hw (by simpa using hw')
        · rcases List.any_eq_true.mp hcand with ⟨tx, htx, htxh⟩
          have heq : tx.hash = l.transaction_hash := by simpa using htxh
          exact hall tx htx (by rw [heq, hth])
      rcases mem_mapSet _ _ _ e he with h1 | h1
      · split at h1
        · rcases mem_mapSet _ _ _ e h1 with h2 | h2
          · exact hfa e h2
          · rw [h2]
            exact hne
        · exact hfa e h1
      · rw [h1]
        exact hne
  · exact hfa e he

theorem keysNodup_processLog (a : String) (t : List TxRef) (w : List String)
    (fa : List (String × Nat × Nat)) (l : EvmLog)
    (h : (fa.map Prod.fst).Nodup) :
    ((processLog a t w fa l).map Prod.fst).Nodup := by
  simp only [processLog]
  split
  · split
    · exact h
    · apply keysNodup_mapSet
      split
      · exact keysNodup_mapSet _ _ _ h
      · exact h
  · exact h

theorem foldl_processLog_no_excluded_key (a : String) (t : List TxRef) (w : List String)
    (h : String) (hexc : w.contains h = true ∨ ∀ tx ∈ t, tx.hash ≠ h) :
    ∀ (logs : List EvmLog) (fa : List (String × Nat × Nat)),
      (∀ e ∈ fa, e.1 ≠ h) →
      ∀ e ∈ logs.foldl (processLog a t w) fa, e.1 ≠ h := by
  intro logs
  induction logs with
  | nil => intro fa hfa e he; exact hfa e he
  | cons l logs ih =>
    intro fa hfa e he
    simp only [List.foldl_cons] at he
    exact ih _ (processLog_no_excluded_key a t w fa l h hfa hexc) e he

theorem foldl_processLog_keysNodup (a : String) (t : List TxRef) (w : List String) :
    ∀ (logs : List EvmLog) (fa : List (String × Nat × Nat)),
      (fa.map Prod.fst).Nodup →
      (((logs.foldl (processLog a t w) fa)).map Prod.fst).Nodup := by
  intro logs
  induction logs with
  | nil => intro fa hfa; exact hfa
  | cons l logs ih =>
    intro fa hfa
    simp only [List.foldl_cons]
    exact ih _ (keysNodup_processLog a t w fa l hfa)

theorem accumulate_no_excluded_key (address : String) (txs : List TxRef)
    (blockLogs : Nat → Option (List EvmLog)) (h : String)
    (hok : ∀ b ∈ distinctBlockNumbers txs, ∀ logs, blockLogs b = some logs →
      ((liquidityWithdrawals (txs.filter (fun tx => tx.blockNumber == b)) logs).contains h
          = true ∨
       ∀ tx ∈ txs.filter (fun tx => tx.blockNumber == b), tx.hash ≠ h)) :
    ∀ e ∈ accumulateFeeAmounts address txs blockLogs, e.1 ≠ h := by
  have main : ∀ (bs : List Nat),
      (∀ b ∈ bs, ∀ logs, blockLogs b = some logs →
        ((liquidityWithdrawals (txs.filter (fun tx => tx.blockNumber == b)) logs).contains h
            = true ∨
         ∀ tx ∈ txs.filter (fun tx => tx.blockNumber == b), tx.hash ≠ h)) →
      ∀ (st : List (String × Nat × Nat) × List TimedCall × Nat),
        (∀ e ∈ st.1, e.1 ≠ h) →
        ∀ e ∈ (bs.foldl (accumulateStep (jsToLower address) txs blockLogs) st).1,
          e.1 ≠ h := by
    intro bs
    induction bs with
    | nil => intro _ st hst e he; exact hst e he
    | cons b bs ih =>
      intro hbs st hst e he
      simp only [List.foldl_cons] at he
      refine ih (fun b' hb' => hbs b' (List.mem_cons_of_mem b hb')) _ ?_ e he
      intro e' he'
      simp only [accumulateStep] at he'
      split at he'
      · exact hst e' he'
      · next logs hlogs =>
        simp only [] at he'
        refine foldl_processLog_no_excluded_key _ _ _ h ?_ logs st.1 hst e' he'
        exact hbs b (List.mem_cons_self b bs) logs hlogs
  intro e he
  exact main (distinctBlockNumbers txs) (fun b hb => hok b hb) ([], [], 0)
    (by intro e' he'; cases he') e he

theorem accumulate_keysNodup (address : String) (txs : List TxRef)
    (blockLogs : Nat → Option (List EvmLog)) :
    ((accumulateFeeAmounts address txs blockLogs).map Prod.fst).Nodup := by
  have main : ∀ (bs : List Nat) (st : List (String × Nat × Nat) × List TimedCall × Nat),
      (st.1.map Prod.fst).Nodup →
      (((bs.foldl (accumulateStep (jsToLower address) txs blockLogs) st).1).map
        Prod.fst).Nodup := by
    intro bs
    induction bs with
    | nil => intro st hst; exact hst
    | cons b bs ih =>
      intro st hst
      simp only [List.foldl_cons]
      refine ih _ ?_
      simp only [accumulateStep]
      split
      · exact hst
      · exact foldl_processLog_keysNodup _ _ _ _ _ hst
  exact main (distinctBlockNumbers txs) ([], [], 0) (by simp)

theorem mem_buildFeeRecordsStep (txs : List TxRef) (acc : List FeeCollectionRecord)
    (e : String × Nat × Nat) :
    ∀ rec ∈ buildFeeRecordsStep txs acc e, rec ∈ acc ∨ rec.transactionHash = e.1 := by
  intro rec h
  simp only [buildFeeRecordsStep] at h
  split at h
  · exact Or.inl h
  · split at h
    · rcases List.mem_append.mp h with h1 | h1
      · split at h1
        · rcases List.mem_append.mp h1 with h2 | h2
          · exact Or.inl h2
          · right
            have : rec = _ := List.mem_singleton.mp h2
            rw [this]
        · exact Or.inl h1
      · right
        have : rec = _ := List.mem_singleton.mp h1
        rw [this]
    · split at h
      · rcases List.mem_append.mp h with h1 | h1
        · exact Or.inl h1
        · right
          have : rec = _ := List.mem_singleton.mp h1
          rw [this]
      · exact Or.inl h

theorem mem_buildFeeRecords (txs : List TxRef) :
    ∀ (fam : List (String × Nat × Nat)) (acc : List FeeCollectionRecord),
      ∀ rec ∈ fam.foldl (buildFeeRecordsStep txs) acc,
        rec ∈ acc ∨ ∃ e ∈ fam, rec.transactionHash = e.1 := by
  intro fam
  induction fam with
  | nil => intro acc rec h; exact Or.inl h
  | cons e fam ih =>
    intro acc rec h
    simp only [List.foldl_cons] at h
    rcases ih _ rec h with h1 | ⟨e', he', h2⟩
    · rcases mem_buildFeeRecordsStep txs acc e rec h1 with h2 | h2
      · exact Or.inl h2
      · exact Or.inr ⟨e, List.mem_cons_self e fam, h2⟩
    · exact Or.inr ⟨e', List.mem_cons_of_mem e he', h2⟩

theorem mem_groupStep (m : List (String × GroupEntry)) (fee : FeeCollectionRecord) :
    ∀ kg ∈ groupStep m fee, kg ∈ m ∨ kg.1 = fee.transactionHash := by
  intro kg h
  simp only [groupStep] at h
  rcases mem_mapSet _ _ _ kg h with h1 | h1
  · exact Or.inl h1
  · right
    rw [h1]

theorem mem_groupByTransaction :
    ∀ (fees : List FeeCollectionRecord) (m : List (String × GroupEntry)),
      ∀ kg ∈ fees.foldl groupStep m,
        kg ∈ m ∨ ∃ f ∈ fees, kg.1 = f.transactionHash := by
  intro fees
  induction fees with
  | nil => intro m kg h; exact Or.inl h
  | cons fee fees ih =>
    intro m kg h
    simp only [List.foldl_cons] at h
    rcases ih _ kg h with h1 | ⟨f, hf, h2⟩
    · rcases mem_groupStep m fee kg h1 with h2 | h2
      · exact Or.inl h2
      · exact Or.inr ⟨fee, List.mem_cons_self fee fees, h2⟩
    · exact Or.inr ⟨f, List.mem_cons_of_mem fee hf, h2⟩

theorem mem_combineByTransaction (dateGetTime : String → Int)
    (allFees : List FeeCollectionRecord) :
    ∀ c ∈ combineByTransaction dateGetTime allFees,
      ∃ kg ∈ groupByTransaction allFees,
        c = (⟨kg.2.timestamp, kg.2.wtao.getD 0, kg.2.usdc.getD 0, kg.1,
             kg.2.blockNumber⟩ : CombinedFeeCollection) := by
  intro c hc
  unfold combineByTransaction at hc
  have hmem := (List.perm_insertionSort (newestFirst dateGetTime) _).mem_iff.mp hc
  rcases List.mem_map.mp hmem with ⟨kg, hkg, heq⟩
  exact ⟨kg, hkg, heq.symm⟩

/-- C2: a candidate transaction whose block's fetched logs contain a
DecreaseLiquidity event for its hash contributes no record to the combined
fee collections — even when the same block's logs also carry a USDC transfer
from the position manager to the owner in that transaction.  (The hypothesis
that every candidate listing of the hash names block b reflects that a
transaction lives in exactly one block.) -/
theorem decrease_liquidity_excluded (dateGetTime : String → Int) (address : String)
    (transactions : List TxRef) (blockLogs : Nat → Option (List EvmLog))
    (h : String) (b : Nat) (logs : List EvmLog)
    (hb : blockLogs b = some logs)
    (honly : ∀ tx ∈ transactions, tx.hash = h → tx.blockNumber = b)
    (hdl : ∃ l ∈ logs, l.transaction_hash = h ∧ l.event_name = "DecreaseLiquidity")
    (hcand : ∃ tx ∈ transactions, tx.hash = h ∧ tx.blockNumber = b) :
    ∀ rec ∈ combinedFeeCollections dateGetTime address transactions blockLogs,
      rec.transactionHash ≠ h := by
  have hkeys : ∀ e ∈ accumulateFeeAmounts address transactions blockLogs, e.1 ≠ h := by
    refine accumulate_no_excluded_key address transactions blockLogs h ?_
    intro b' _ logsB hlogsB
    by_cases hbb : b' = b
    · subst hbb
      rw [hb] at hlogsB
      injection hlogsB with hlogsB
      subst hlogsB
      left
      rcases hdl with ⟨l, hl, hlh, hln⟩
      rcases hcand with ⟨tx, htx, htxh, htxb⟩
      have htxmem : tx ∈ transactions.filter (fun tx => tx.blockNumber == b') := by
        simp [List.mem_filter, htx, htxb]
      have hlmem : l ∈ logs.filter (fun l =>
          (transactions.filter (fun tx => tx.blockNumber == b')).any
            (fun tx => tx.hash == l.transaction_hash) &&
          l.event_name == "DecreaseLiquidity") := by
        rw [List.mem_filter]
        refine ⟨hl, ?_⟩
        simp only [Bool.and_eq_true, List.any_eq_true, beq_iff_eq]
        exact ⟨⟨tx, htxmem, by rw [htxh, hlh]⟩, hln⟩
      have : h ∈ liquidityWithdrawals
          (transactions.filter (fun tx => tx.blockNumber == b')) logs := by
        unfold liquidityWithdrawals
        rw [← hlh]
        exact List.mem_map.mpr ⟨l, hlmem, rfl⟩
      exact List.elem_eq_true_of_mem this
    · right
      intro tx htx hth
      rcases List.mem_filter.mp htx with ⟨htxm, htxb⟩
      have : tx.blockNumber = b := honly tx htxm hth
      apply hbb
      rw [← this]
      exact (beq_iff_eq.mp htxb).symm
  intro rec hrec
  rcases mem_combineByTransaction dateGetTime _ rec hrec with ⟨kg, hkg, heq⟩
  rcases mem_groupByTransaction _ _ kg hkg with hnil | ⟨f, hf, hkf⟩
  · cases hnil
  rcases mem_buildFeeRecords transactions _ _ f hf with hnil | ⟨e, he, hfe⟩
  · cases hnil
  have he' : e ∈ accumulateFeeAmounts address transactions blockLogs :=
    (List.mem_filter.mp he).1
  have : rec.transactionHash = e.1 := by
    rw [heq]
    simp only []
    rw [hkf, hfe]
  rw [this]
  exact hkeys e he'

/-- Witness for decrease_liquidity_excluded: block 5 carries a
DecreaseLiquidity event for candidate hash 0xa (which also moves USDC) and a
plain USDC fee transfer for candidate hash 0xc; the surviving record's hash
is not 0xa. -/
theorem decrease_liquidity_excluded_witness :
    (⟨"t1", 0, 42, "0xc", 5⟩ : CombinedFeeCollection).transactionHash ≠ "0xa" :=
  decrease_liquidity_excluded (fun _ => 0) "0xOwner"
    [⟨"0xa", "t1", 5⟩, ⟨"0xc", "t1", 5⟩]
    (fun bn => if bn = 5 then some
      [⟨"0xa", "DecreaseLiquidity", jsToLower POSITION_MANAGER, "", "", 0, 0⟩,
       ⟨"0xa", "Transfer", USDC_CONTRACT_ADDRESS, POSITION_MANAGER, "0xOwner", 999, 0⟩,
       ⟨"0xc", "Transfer", USDC_CONTRACT_ADDRESS, POSITION_MANAGER, "0xOwner", 42, 0⟩]
     else none)
    "0xa" 5
    [⟨"0xa", "DecreaseLiquidity", jsToLower POSITION_MANAGER, "", "", 0, 0⟩,
     ⟨"0xa", "Transfer", USDC_CONTRACT_ADDRESS, POSITION_MANAGER, "0xOwner", 999, 0⟩,
     ⟨"0xc", "Transfer", USDC_CONTRACT_ADDRESS, POSITION_MANAGER, "0xOwner", 42, 0⟩]
    (by decide) (by decide) (by decide) (by decide)
    ⟨"t1", 0, 42, "0xc", 5⟩ (by decide)

/-- C4: the fee classifier keeps exactly the transactions whose accumulated
USDC leg is strictly positive: every kept entry is an accumulated entry with
a positive USDC sum, every accumulated entry with a positive USDC sum is
kept, and an accumulated entry with a zero USDC leg yields no fee record at
all — even when its WTAO leg is positive. -/
theorem usdc_positivity_classifier (address : String) (txs : List TxRef)
    (blockLogs : Nat → Option (List EvmLog)) :
    (∀ e ∈ getFeeAmountsFromTransactions address txs blockLogs,
      e ∈ accumulateFeeAmounts address txs blockLogs ∧ 0 < e.2.1) ∧
    (∀ e ∈ accumulateFeeAmounts address txs blockLogs,
      0 < e.2.1 → e ∈ getFeeAmountsFromTransactions address txs blockLogs) ∧
    (∀ h u w, (h, u, w) ∈ accumulateFeeAmounts address txs blockLogs → u = 0 →
      ∀ rec ∈ buildFeeRecords txs (getFeeAmountsFromTransactions address txs blockLogs),
        rec.transactionHash ≠ h) := by
  refine ⟨?_, ?_, ?_⟩
  · intro e he
    have := List.mem_filter.mp he
    exact ⟨this.1, by simpa using this.2⟩
  · intro e he hpos
    exact List.mem_filter.mpr ⟨he, by simpa using hpos⟩
  · intro h u w hA hu rec hrec hrh
    rcases mem_buildFeeRecords txs _ _ rec hrec with hnil | ⟨e, he, hre⟩
    · cases hnil
    have heA := List.mem_filter.mp he
    have hepos : 0 < e.2.1 := by simpa using heA.2
    have : e = (h, u, w) := by
      refine entry_eq_of_keysNodup (accumulate_keysNodup address txs blockLogs)
        heA.1 hA ?_
      rw [← hre, hrh]
    rw [this] at hepos
    simp [hu] at hepos

/-- Witness for usdc_positivity_classifier: a transaction whose block logs
carry a 42-unit USDC transfer from the position manager to the owner is kept
by the classifier. -/
theorem usdc_positivity_classifier_witness :
    ("0xc", 42, 0) ∈ getFeeAmountsFromTransactions "0xOwner" [⟨"0xc", "t1", 5⟩]
      (fun bn => if bn = 5 then some
        [⟨"0xc", "Transfer", USDC_CONTRACT_ADDRESS, POSITION_MANAGER, "0xOwner", 42, 0⟩]
       else none) :=
  (usdc_positivity_classifier "0xOwner" [⟨"0xc", "t1", 5⟩]
    (fun bn => if bn = 5 then some
      [⟨"0xc", "Transfer", USDC_CONTRACT_ADDRESS, POSITION_MANAGER, "0xOwner", 42, 0⟩]
     else none)).2.1
    ("0xc", 42, 0) (by decide) (by decide)

theorem mapGet_eq_some_mem {β : Type} :
    ∀ {m : List (String × β)} {k : String} {v : β},
      mapGet m k = some v → (k, v) ∈ m := by
  intro m
  induction m with
  | nil => intro k v h; simp [mapGet] at h
  | cons a m ih =>
    intro k v h
    by_cases hp : (a.1 == k) = true
    · rw [List.mem_cons]
      left
      simp only [mapGet, List.find?, hp, Option.map_some'] at h
      have hk : a.1 = k := by simpa using hp
      cases a
      simp only at hk h
      rw [← hk, ← Option.some.inj h]
    · rw [List.mem_cons]
      right
      refine ih ?_
      have hp' : (a.1 == k) = false := by simpa using hp
      unfold mapGet at h ⊢
      rwa [show List.find? (fun e => e.1 == k) (a :: m) =
        List.find? (fun e => e.1 == k) m by simp only [List.find?, hp']] at h

theorem key_mapSet_iff {β : Type} (m : List (String × β)) (k k' : String) (v : β) :
    k' ∈ (mapSet m k v).map Prod.fst ↔ k' ∈ m.map Prod.fst ∨ k' = k := by
  rw [keys_mapSet]
  split
  · next hk =>
    constructor
    · exact Or.inl
    · rintro (h | rfl)
      · exact h
      · exact hk
  · simp

theorem keysNodup_groupStep (m : List (String × GroupEntry)) (fee : FeeCollectionRecord)
    (h : (m.map Prod.fst).Nodup) : ((groupStep m fee).map Prod.fst).Nodup := by
  simp only [groupStep]
  exact keysNodup_mapSet _ _ _ h

theorem keysNodup_groupByTransaction :
    ∀ (fees : List FeeCollectionRecord) (m : List (String × GroupEntry)),
      (m.map Prod.fst).Nodup → (((fees.foldl groupStep m)).map Prod.fst).Nodup := by
  intro fees
  induction fees with
  | nil => intro m h; exact h
  | cons fee fees ih =>
    intro m h
    simp only [List.foldl_cons]
    exact ih _ (keysNodup_groupStep m fee h)

theorem key_groupByTransaction :
    ∀ (fees : List FeeCollectionRecord) (m : List (String × GroupEntry)) (k : String),
      k ∈ (fees.foldl groupStep m).map Prod.fst ↔
        k ∈ m.map Prod.fst ∨ ∃ f ∈ fees, f.transactionHash = k := by
  intro fees
  induction fees with
  | nil => intro m k; simp
  | cons fee fees ih =>
    intro m k
    simp only [List.foldl_cons]
    rw [ih]
    simp only [groupStep, key_mapSet_iff]
    constructor
    · rintro ((h | rfl) | ⟨f, hf, rfl⟩)
      · exact Or.inl h
      · exact Or.inr ⟨fee, List.mem_cons_self fee fees, rfl⟩
      · exact Or.inr ⟨f, List.mem_cons_of_mem fee hf, rfl⟩
    · rintro (h | ⟨f, hf, rfl⟩)
      · exact Or.inl (Or.inl h)
      · rcases List.mem_cons.mp hf with rfl | hf'
        · exact Or.inl (Or.inr rfl)
        · exact Or.inr ⟨f, hf', rfl⟩

theorem countP_key_eq_of_nodup {β : Type} :
    ∀ (m : List (String × β)), (m.map Prod.fst).Nodup → ∀ k : String,
      m.countP (fun e => e.1 == k) = if k ∈ m.map Prod.fst then 1 else 0 := by
  intro m
  induction m with
  | nil => intro _ k; simp
  | cons a m ih =>
    intro h k
    simp only [List.map_cons, List.nodup_cons] at h
    rw [List.countP_cons]
    by_cases hk : a.1 = k
    · have hnot : k ∉ m.map Prod.fst := by
        rw [← hk]
        exact h.1
      rw [ih h.2 k, if_neg hnot]
      simp [hk]
    · rw [ih h.2 k]
      have : (k ∈ a.1 :: m.map Prod.fst) ↔ k ∈ m.map Prod.fst := by
        simp only [List.mem_cons]
        constructor
        · rintro (rfl | hm)
          · exact absurd rfl hk
          · exact hm
        · exact Or.inr
      simp only [List.map_cons]
      rw [if_congr this rfl rfl]
      simp [hk]

theorem groupEntryOf_inv (F : List FeeCollectionRecord) (m : List (String × GroupEntry))
    (fee : FeeCollectionRecord) (hfee : fee ∈ F) (hm : GroupInv F m) :
    (∀ a, (groupEntryOf m fee).wtao = some a →
      ∃ f ∈ F, f.transactionHash = fee.transactionHash ∧ f.token = "WTAO" ∧
        f.amount = a) ∧
    (∀ a, (groupEntryOf m fee).usdc = some a →
      ∃ f ∈ F, f.transactionHash = fee.transactionHash ∧ f.token = "USDC" ∧
        f.amount = a) ∧
    ∃ f ∈ F, f.transactionHash = fee.transactionHash ∧
      f.timestamp = (groupEntryOf m fee).timestamp ∧
      f.blockNumber = (groupEntryOf m fee).blockNumber := by
  have hbase : (∀ a,
      ((mapGet m fee.transactionHash).getD
        ⟨none, none, fee.timestamp, fee.blockNumber⟩).wtao = some a →
      ∃ f ∈ F, f.transactionHash = fee.transactionHash ∧ f.token = "WTAO" ∧
        f.amount = a) ∧
      (∀ a,
      ((mapGet m fee.transactionHash).getD
        ⟨none, none, fee.timestamp, fee.blockNumber⟩).usdc = some a →
      ∃ f ∈ F, f.transactionHash = fee.transactionHash ∧ f.token = "USDC" ∧
        f.amount = a) ∧
      ∃ f ∈ F, f.transactionHash = fee.transactionHash ∧
        f.timestamp = ((mapGet m fee.transactionHash).getD
          ⟨none, none, fee.timestamp, fee.blockNumber⟩).timestamp ∧
        f.blockNumber = ((mapGet m fee.transactionHash).getD
          ⟨none, none, fee.timestamp, fee.blockNumber⟩).blockNumber := by
    rcases hget : mapGet m fee.transactionHash with _ | g
    · refine ⟨?_, ?_, fee, hfee, rfl, rfl, rfl⟩
      · intro a ha
        simp at ha
      · intro a ha
        simp at ha
    · have hgm := mapGet_eq_some_mem hget
      have := hm (fee.transactionHash, g) hgm
      simpa using this
  unfold groupEntryOf
  by_cases hw : fee.token = "WTAO"
  · rw [if_pos (show (fee.token == "WTAO") = true by simp [hw])]
    refine ⟨?_, ?_, ?_⟩
    · intro a ha
      simp only at ha
      exact ⟨fee, hfee, rfl, hw, Option.some.inj ha⟩
    · intro a ha
      simp only at ha
      exact hbase.2.1 a ha
    · simpa only using hbase.2.2
  · rw [if_neg (show ¬ (fee.token == "WTAO") = true by simp [hw])]
    by_cases hu : fee.token = "USDC"
    · rw [if_pos (show (fee.token == "USDC") = true by simp [hu])]
      refine ⟨?_, ?_, ?_⟩
      · intro a ha
        simp only at ha
        exact hbase.1 a ha
      · intro a ha
        simp only at ha
        exact ⟨fee, hfee, rfl, hu, Option.some.inj ha⟩
      · simpa only using hbase.2.2
    · rw [if_neg (show ¬ (fee.token == "USDC") = true by simp [hu])]
      exact hbase

theorem groupStep_inv (F : List FeeCollectionRecord) (m : List (String × GroupEntry))
    (fee : FeeCollectionRecord) (hfee : fee ∈ F) (hm : GroupInv F m) :
    GroupInv F (groupStep m fee) := by
  intro kg hkg
  simp only [groupStep] at hkg
  rcases mem_mapSet _ _ _ kg hkg with hold | hnew
  · exact hm kg hold
  · subst hnew
    exact groupEntryOf_inv F m fee hfee hm

theorem groupByTransaction_inv (F : List FeeCollectionRecord) :
    ∀ (fees : List FeeCollectionRecord), (∀ f ∈ fees, f ∈ F) →
      ∀ (m : List (String × GroupEntry)), GroupInv F m →
        GroupInv F (fees.foldl groupStep m) := by
  intro fees
  induction fees with
  | nil => intro _ m hm; exact hm
  | cons fee fees ih =>
    intro hsub m hm
    simp only [List.foldl_cons]
    exact ih (fun f hf => hsub f (List.mem_cons_of_mem fee hf)) _
      (groupStep_inv F m fee (hsub fee (List.mem_cons_self fee fees)) hm)

/-- C5: combineByTransaction produces exactly one combined record per
distinct transaction hash occurring in the surviving record list, fills zero
(the source's "0" string) for any leg not observed for that hash, carries a
timestamp and block number taken from that hash's records, and returns the
sequence sorted descending by parsed timestamp (newest first). -/
theorem combine_by_transaction_spec (dateGetTime : String → Int)
    (allFees : List FeeCollectionRecord) :
    List.Sorted (newestFirst dateGetTime) (combineByTransaction dateGetTime allFees) ∧
    (∀ k : String,
      (combineByTransaction dateGetTime allFees).countP
          (fun c => c.transactionHash == k) =
        if ∃ f ∈ allFees, f.transactionHash = k then 1 else 0) ∧
    ∀ c ∈ combineByTransaction dateGetTime allFees,
      ((¬ ∃ f ∈ allFees, f.transactionHash = c.transactionHash ∧ f.token = "WTAO") →
        c.wtaoAmount = 0) ∧
      ((¬ ∃ f ∈ allFees, f.transactionHash = c.transactionHash ∧ f.token = "USDC") →
        c.usdcAmount = 0) ∧
      ∃ f ∈ allFees, f.transactionHash = c.transactionHash ∧
        f.timestamp = c.timestamp ∧ f.blockNumber = c.blockNumber := by
  refine ⟨?_, ?_, ?_⟩
  · unfold combineByTransaction
    exact List.sorted_insertionSort _ _
  · intro k
    unfold combineByTransaction
    rw [(List.perm_insertionSort _ _).countP_eq, List.countP_map]
    have hfun : ((fun c : CombinedFeeCollection => c.transactionHash == k) ∘
        (fun e : String × GroupEntry =>
          (⟨e.2.timestamp, e.2.wtao.getD 0, e.2.usdc.getD 0, e.1, e.2.blockNumber⟩ :
            CombinedFeeCollection))) = fun e : String × GroupEntry => e.1 == k := rfl
    rw [hfun]
    have hnodup : ((groupByTransaction allFees).map Prod.fst).Nodup :=
      keysNodup_groupByTransaction allFees [] (by simp)
    rw [countP_key_eq_of_nodup (groupByTransaction allFees) hnodup k]
    have hiff : k ∈ (groupByTransaction allFees).map Prod.fst ↔
        ∃ f ∈ allFees, f.transactionHash = k := by
      have := key_groupByTransaction allFees [] k
      simpa using this
    rw [if_congr hiff rfl rfl]
  · intro c hc
    rcases mem_combineByTransaction dateGetTime allFees c hc with ⟨kg, hkg, hceq⟩
    have hinv := groupByTransaction_inv allFees allFees (fun _ hf => hf) []
      (by intro kg h; exact absurd h (List.not_mem_nil kg)) kg hkg
    have hch : c.transactionHash = kg.1 := by rw [hceq]
    have hct : c.timestamp = kg.2.timestamp := by rw [hceq]
    have hcb : c.blockNumber = kg.2.blockNumber := by rw [hceq]
    have hcw : c.wtaoAmount = kg.2.wtao.getD 0 := by rw [hceq]
    have hcu : c.usdcAmount = kg.2.usdc.getD 0 := by rw [hceq]
    refine ⟨?_, ?_, ?_⟩
    · intro hno
      rw [hcw]
      rcases hW : kg.2.wtao with _ | a
      · simp
      · exfalso
        rcases hinv.1 a hW with ⟨f, hf, hfh, hft, _⟩
        exact hno ⟨f, hf, by rw [hch]; exact hfh, hft⟩
    · intro hno
      rw [hcu]
      rcases hU : kg.2.usdc with _ | a
      · simp
      · exfalso
        rcases hinv.2.1 a hU with ⟨f, hf, hfh, hft, _⟩
        exact hno ⟨f, hf, by rw [hch]; exact hfh, hft⟩
    · rcases hinv.2.2 with ⟨f, hf, hfh, hfts, hfbn⟩
      exact ⟨f, hf, by rw [hch]; exact hfh, by rw [hct]; exact hfts,
        by rw [hcb]; exact hfbn⟩

/-- Witness for combine_by_transaction_spec: two legs of one transaction plus
a WTAO-only record of another; the output is sorted newest-first and carries
exactly one record for hash 0xh. -/
theorem combine_by_transaction_spec_witness :
    List.Sorted (newestFirst (fun s => if s = "t2" then 2 else 1))
      (combineByTransaction (fun s => if s = "t2" then 2 else 1)
        [⟨"t2", "USDC", 125, "0xh", 7⟩, ⟨"t2", "WTAO", 3, "0xh", 7⟩,
         ⟨"t1", "WTAO", 9, "0xg", 6⟩]) ∧
    (combineByTransaction (fun s => if s = "t2" then 2 else 1)
        [⟨"t2", "USDC", 125, "0xh", 7⟩, ⟨"t2", "WTAO", 3, "0xh", 7⟩,
         ⟨"t1", "WTAO", 9, "0xg", 6⟩]).countP
      (fun c => c.transactionHash == "0xh") =
      if ∃ f ∈ [(⟨"t2", "USDC", 125, "0xh", 7⟩ : FeeCollectionRecord),
                ⟨"t2", "WTAO", 3, "0xh", 7⟩, ⟨"t1", "WTAO", 9, "0xg", 6⟩],
          f.transactionHash = "0xh" then 1 else 0 :=
  ⟨(combine_by_transaction_spec (fun s => if s = "t2" then 2 else 1)
      [⟨"t2", "USDC", 125, "0xh", 7⟩, ⟨"t2", "WTAO", 3, "0xh", 7⟩,
       ⟨"t1", "WTAO", 9, "0xg", 6⟩]).1,
   (combine_by_transaction_spec (fun s => if s = "t2" then 2 else 1)
      [⟨"t2", "USDC", 125, "0xh", 7⟩, ⟨"t2", "WTAO", 3, "0xh", 7⟩,
       ⟨"t1", "WTAO", 9, "0xg", 6⟩]).2.1 "0xh"⟩

theorem pmTxLoop_trace (fetchPage : Nat → Option (List TxRef)) (limit : Nat) :
    ∀ (fuel page : Nat) (acc : List TxRef) (trace : List TimedCall),
      (∀ c ∈ trace, c.preDelayMs = 0 ∧ ∃ p, c.call = OutboundCall.txPage p) →
      ∀ res, pmTxLoop fetchPage limit fuel page acc trace = some res →
        ∀ c ∈ res.2, c.preDelayMs = 0 ∧ ∃ p, c.call = OutboundCall.txPage p := by
  intro fuel
  induction fuel with
  | zero =>
    intro page acc trace htr res hres c hc
    simp only [pmTxLoop] at hres
    injection hres with hres
    rw [← hres] at hc
    exact htr c hc
  | succ fuel ih =>
    intro page acc trace htr res hres c hc
    simp only [pmTxLoop] at hres
    split at hres
    · split at hres
      · exact absurd hres (by simp)
      · next txs =>
        have htr' : ∀ c ∈ trace ++ [⟨OutboundCall.txPage page, 0⟩],
            c.preDelayMs = 0 ∧ ∃ p, c.call = OutboundCall.txPage p := by
          intro c' hc'
          rcases List.mem_append.mp hc' with h1 | h1
          · exact htr c' h1
          · have : c' = ⟨OutboundCall.txPage page, 0⟩ := List.mem_singleton.mp h1
            rw [this]
            exact ⟨rfl, page, rfl⟩
        split at hres
        · exact ih _ _ _ htr' res hres c hc
        · injection hres with hres
          rw [← hres] at hc
          exact htr' c hc
    · injection hres with hres
      rw [← hres] at hc
      exact htr c hc

theorem accumulate_trace_eq (address : String) (txs : List TxRef)
    (blockLogs : Nat → Option (List EvmLog)) :
    (accumulateFeeAmountsT address txs blockLogs).2 =
      (List.enumFrom 0 (distinctBlockNumbers txs)).map
        (fun ib => ⟨OutboundCall.blockQuery ib.2, if 0 < ib.1 then 1500 else 0⟩) := by
  have main : ∀ (bs : List Nat) (fa : List (String × Nat × Nat))
      (t0 : List TimedCall) (n : Nat),
      (bs.foldl (accumulateStep (jsToLower address) txs blockLogs) (fa, t0, n)).2.1 =
        t0 ++ (List.enumFrom n bs).map
          (fun ib => ⟨OutboundCall.blockQuery ib.2, if 0 < ib.1 then 1500 else 0⟩) := by
    intro bs
    induction bs with
    | nil => intro fa t0 n; simp
    | cons b bs ih =>
      intro fa t0 n
      simp only [List.foldl_cons, accumulateStep]
      rcases hbl : blockLogs b with _ | logs <;>
        simp only [hbl] <;>
        rw [ih] <;>
        simp [List.enumFrom, List.append_assoc]
  unfold accumulateFeeAmountsT
  exact main (distinctBlockNumbers txs) [] [] 0

set_option maxRecDepth 8000 in
/-- C7 counterexample: a 400-transaction fetch needs two back-to-back page
queries and then a block query with no inserted delay before it, so
consecutive outbound calls are not spaced by the 1500 ms minimum interval the
code uses for its only sleep — there is no shared rate limiter. -/
theorem rate_limit_counterexample :
    fetchAndCacheFeesTrace
      (fun p => if p = 1 ∨ p = 2 then some (List.replicate 200 ⟨"0xh", "t", 5⟩)
        else none)
      (fun _ => some []) "0xowner" 400 =
      some [⟨OutboundCall.txPage 1, 0⟩, ⟨OutboundCall.txPage 2, 0⟩,
            ⟨OutboundCall.blockQuery 5, 0⟩] ∧
    ¬ rateLimited 1500
      [⟨OutboundCall.txPage 1, 0⟩, ⟨OutboundCall.txPage 2, 0⟩,
       ⟨OutboundCall.blockQuery 5, 0⟩] := by
  constructor
  · decide
  · intro hcl
    have := hcl 1 (by norm_num) (by norm_num)
    simp at this

/-- C7 (amended): the only inserted inter-call delay in the fee subsystem is
the 1500 ms sleep between consecutive per-block log queries inside a single
getFeeAmountsFromTransactions invocation: every paginated transaction query
is issued with zero inserted delay, and the per-block trace is exactly the
block list with zero delay before the first query and 1500 ms before each
subsequent one.  No limiter spans the pagination, separate invocations, or
different cache keys. -/
theorem fee_call_spacing (fetchPage : Nat → Option (List TxRef))
    (blockLogs : Nat → Option (List EvmLog)) (address : String) (limit : Nat) :
    (∀ res, getPositionManagerTransactions fetchPage limit = some res →
      ∀ c ∈ res.2, c.preDelayMs = 0 ∧ ∃ p, c.call = OutboundCall.txPage p) ∧
    ∀ txs : List TxRef,
      (accumulateFeeAmountsT address txs blockLogs).2 =
        (List.enumFrom 0 (distinctBlockNumbers txs)).map
          (fun ib => ⟨OutboundCall.blockQuery ib.2, if 0 < ib.1 then 1500 else 0⟩) := by
  constructor
  · intro res hres
    unfold getPositionManagerTransactions at hres
    split at hres
    · exact absurd hres (by simp)
    · next txs trace heq =>
      injection hres with hres
      intro c hc
      rw [← hres] at hc
      exact pmTxLoop_trace fetchPage limit ((limit + 199) / 200) 1 [] []
        (by intro c' hc'; exact absurd hc' (List.not_mem_nil c')) _ heq c hc
  · intro txs
    exact accumulate_trace_eq address txs blockLogs

/-- Witness for fee_call_spacing: two transactions in different blocks give a
block trace with no delay before the first query and a 1500 ms delay before
the second. -/
theorem fee_call_spacing_witness :
    (accumulateFeeAmountsT "0xo" [⟨"0xa", "t", 5⟩, ⟨"0xb", "t", 9⟩]
        (fun _ => some [])).2 =
      (List.enumFrom 0 (distinctBlockNumbers [⟨"0xa", "t", 5⟩, ⟨"0xb", "t", 9⟩])).map
        (fun ib => ⟨OutboundCall.blockQuery ib.2, if 0 < ib.1 then 1500 else 0⟩) :=
  (fee_call_spacing (fun _ => none) (fun _ => some []) "0xo" 0).2
    [⟨"0xa", "t", 5⟩, ⟨"0xb", "t", 9⟩]

end Feedboard
